import Mathlib

/-!
Verification of the virtualized reading engine of the yuanyuanReader
repository (the `Reader` component): segmentation of book text into
paragraphs, the layout estimator, the cumulative offset index, the
viewport window, persisted reading progress, chapter navigation, and
the text-to-speech sequencer.  All definitions below are shallow
embeddings of the TypeScript source; text is modelled as `List Char`,
pixel quantities as `ℕ`/`ℚ`, and the callback-driven speech code as an
explicit state machine.
-/

/-- Whitespace test matching the JavaScript regex class `\s` on the ASCII
characters used by the reader (space, tab, newline, carriage return,
vertical tab, form feed). -/
def jsIsSpace (c : Char) : Bool :=
  c = ' ' || c = '\t' || c = '\n' || c = '\r' || c = Char.ofNat 11 || c = Char.ofNat 12

/-- Strip leading whitespace (left half of JavaScript `String.trim`). -/
def trimL (l : List Char) : List Char := l.dropWhile jsIsSpace

/-- Strip trailing whitespace (right half of JavaScript `String.trim`). -/
def trimR (l : List Char) : List Char := (l.reverse.dropWhile jsIsSpace).reverse

/-- JavaScript `String.trim`: strip whitespace from both ends. -/
def jsTrim (l : List Char) : List Char := trimR (trimL l)

/-- JavaScript `str.split(sep)` for a single-character separator: split at
every occurrence of `sep`, keeping empty pieces. -/
def splitChar (sep : Char) : List Char → List (List Char)
  | [] => [[]]
  | c :: cs =>
    if c = sep then [] :: splitChar sep cs
    else
      match splitChar sep cs with
      | [] => [[c]]
      | p :: ps => (c :: p) :: ps

/-- JavaScript `str.split(/\n+/g)`: maximal runs of newlines are the
separators; empty pieces at the ends are kept. -/
def splitNl : List Char → List (List Char)
  | [] => [[]]
  | c :: cs =>
    if c = '\n' then
      [] :: splitNl (cs.dropWhile (fun x => x = '\n'))
    else
      match splitNl cs with
      | [] => [[c]]
      | p :: ps => (c :: p) :: ps
termination_by l => l.length
decreasing_by
  · exact Nat.lt_succ_of_le ((List.dropWhile_sublist _).length_le)
  · exact Nat.lt_succ_self _

/-- Index of the last newline in a character list, if any. -/
def lastNlIdx : List Char → Option ℕ
  | [] => none
  | c :: cs =>
    match lastNlIdx cs with
    | some i => some (i + 1)
    | none => if c = '\n' then some 0 else none

/-- Length of the leftmost-greedy match of the regex `\n\s*\n+` when it
matches at the head of the list (the match extends to just past the last
newline of the whitespace run starting here, and needs a second newline
inside that run), `none` otherwise. -/
def blankRun (cs : List Char) : Option ℕ :=
  match cs with
  | [] => none
  | c :: _ =>
    if c = '\n' then
      match lastNlIdx (cs.takeWhile jsIsSpace) with
      | some i => if 1 ≤ i then some (i + 1) else none
      | none => none
    else none

/-- Scan for the leftmost match of `\n\s*\n+`; return the text before the
match and the text after it. -/
def findBlank : List Char → Option (List Char × List Char)
  | [] => none
  | c :: cs =>
    match blankRun (c :: cs) with
    | some len => some ([], (c :: cs).drop len)
    | none =>
      match findBlank cs with
      | some (p, q) => some (c :: p, q)
      | none => none

theorem blankRun_pos {cs : List Char} {len : ℕ} (h : blankRun cs = some len) : 1 ≤ len := by
  unfold blankRun at h
  split at h
  · exact absurd h (by simp)
  · split at h
    · split at h
      · split at h
        · simp only [Option.some.injEq] at h
          omega
        · exact absurd h (by simp)
      · exact absurd h (by simp)
    · exact absurd h (by simp)

theorem findBlank_length {l p q : List Char} (h : findBlank l = some (p, q)) :
    q.length < l.length := by
  induction l generalizing p q with
  | nil => simp [findBlank] at h
  | cons c cs ih =>
    unfold findBlank at h
    match hbr : blankRun (c :: cs) with
    | some len =>
      rw [hbr] at h
      simp at h
      have hlen := blankRun_pos hbr
      rcases h with ⟨h1, h2⟩
      subst h2
      rw [List.length_drop]
      simp only [List.length_cons]
      omega
    | none =>
      rw [hbr] at h
      match hfb : findBlank cs with
      | some (p0, q0) =>
        rw [hfb] at h
        simp at h
        rcases h with ⟨h1, h2⟩
        subst h2
        exact Nat.lt_succ_of_lt (ih hfb)
      | none => rw [hfb] at h; simp at h

/-- JavaScript `str.split(/\n\s*\n+/g)`: split on blank-line matches. -/
def splitBlank (l : List Char) : List (List Char) :=
  match h : findBlank l with
  | none => [l]
  | some (p, q) => p :: splitBlank q
termination_by l.length
decreasing_by
  exact findBlank_length h

/-- JavaScript `str.replace(/\s+/g, " ")`: collapse every whitespace run
to a single space. -/
def collapseWs : List Char → List Char
  | [] => []
  | c :: cs =>
    if jsIsSpace c then ' ' :: collapseWs (cs.dropWhile jsIsSpace)
    else c :: collapseWs cs
termination_by l => l.length
decreasing_by
  · exact Nat.lt_succ_of_le ((List.dropWhile_sublist _).length_le)
  · exact Nat.lt_succ_self _

/-- A chapter record as stored on a book: a title and a character offset
into the book content (field `index` in the source). -/
structure Chapter where
  title : List Char
  index : ℕ
deriving DecidableEq

/-- A derived paragraph: its text and the chapter it belongs to
(`chapterIndex` is `none` when the book has no chapters). -/
structure Para where
  text : List Char
  chapterIndex : Option ℕ
deriving DecidableEq

/-- JavaScript `text.slice(start, stop)` for `start ≤ stop` clamped to the
text length (drop `start` characters, then take `stop - start`). -/
def jsSlice (text : List Char) (start stop : ℕ) : List Char :=
  (text.drop start).take (stop - start)

/-- Paragraph blocks of one chapter slice: split on blank-line boundaries,
further split every piece on newline runs, trim, and drop empties
(the chaptered branch of the `paragraphs` memo in the source). -/
def sliceBlocks (slice : List Char) : List (List Char) :=
  (((splitBlank slice).flatMap splitNl).map jsTrim).filter (fun t => !t.isEmpty)

/-- Paragraph texts of the no-chapter branch: split on blank-line
boundaries, trim, and drop empties (no newline sub-split). -/
def noChapterBlocks (text : List Char) : List (List Char) :=
  ((splitBlank text).map jsTrim).filter (fun t => !t.isEmpty)

/-- The `paragraphs` memo of the source: with no chapters, blank-line split
of the whole text with `chapterIndex = none`; otherwise chapters are sorted
by offset and each slice `[chapters[i].index, chapters[i+1].index)` is cut
into blocks tagged with chapter ordinal `i`. -/
def segmentParagraphs (text : List Char) (chapters : List Chapter) : List Para :=
  let cs := chapters.mergeSort (fun a b => a.index ≤ b.index)
  if cs.length = 0 then
    (noChapterBlocks text).map (fun t => { text := t, chapterIndex := none })
  else
    (List.range cs.length).flatMap (fun i =>
      let start := (cs.getD i { title := [], index := 0 }).index
      let stop := if i + 1 < cs.length then (cs.getD (i + 1) { title := [], index := 0 }).index
                  else text.length
      (sliceBlocks (jsSlice text start stop)).map
        (fun t => { text := t, chapterIndex := some i }))

/-- JavaScript `Math.round(fontSize * 1.7)`, the `lineHeight` memo. -/
def jsLineHeight (fontSize : ℕ) : ℕ := (17 * fontSize + 5) / 10

/-- `estimateParaHeight` from the source: with unknown (zero) width the
estimate is exactly one line height; otherwise the text is split on
newlines, each line's whitespace is collapsed, its wrapped row count is
`ceil(charCount * (fontSize + 1.15) / width)` floored at one row, and the
total is `rows * lineHeight + 16`. -/
def estimateParaHeight (fontSize lineHeight width : ℕ) (text : List Char) : ℕ :=
  if width = 0 then lineHeight
  else
    ((splitChar '\n' text).map (fun line =>
        let e := (Int.ceil ((((collapseWs line).length : ℚ) * ((fontSize : ℚ) + 115 / 100)) / (width : ℚ))).toNat
        if e = 0 then 1 else e)).foldl (· + ·) 0 * lineHeight + 16

/-- The accumulator loop inside the `paraOffsets` memo: push the running
sum, then add the current height. -/
def paraOffsetsAux (acc : ℕ) : List ℕ → List ℕ
  | [] => []
  | h :: t => acc :: paraOffsetsAux (acc + h) t

/-- The `paraOffsets` memo: cumulative start offsets of the paragraphs. -/
def paraOffsets (heights : List ℕ) : List ℕ := paraOffsetsAux 0 heights

/-- The `totalHeight` value: reduce of the heights with `+` from `0`. -/
def totalHeightPx (heights : List ℕ) : ℕ := heights.foldl (· + ·) 0

/-- JavaScript `Array.findIndex`: index of the first element satisfying
the predicate, or `-1` when there is none. -/
def jsFindIndex (p : ℕ → Bool) (l : List ℕ) : ℤ :=
  match l.findIdx? p with
  | some i => (i : ℤ)
  | none => -1

/-- The `BUFFER` constant of the source. -/
def BUFFER : ℕ := 3

/-- `startIndex` from the source:
`max(0, paraOffsets.findIndex(o => o > scrollTop) - BUFFER)`. -/
def startIndex (offsets : List ℕ) (scrollTop : ℚ) : ℤ :=
  max 0 (jsFindIndex (fun o => scrollTop < (o : ℚ)) offsets - BUFFER)

/-- `endIndex` from the source:
`min(paragraphs.length, paraOffsets.findIndex(o => o > scrollTop + viewportHeight) + BUFFER)`. -/
def endIndex (offsets : List ℕ) (paraCount : ℕ) (scrollTop viewportHeight : ℚ) : ℤ :=
  min (paraCount : ℤ) (jsFindIndex (fun o => scrollTop + viewportHeight < (o : ℚ)) offsets + BUFFER)

/-- JavaScript `Math.round`: floor of the argument plus one half (ties go
toward positive infinity). -/
def jsRound (q : ℚ) : ℤ := ⌊q + 1 / 2⌋

/-- The `clamp` helper of the source: `max(lo, min(hi, n))`. -/
def clampQ (n lo hi : ℚ) : ℚ := max lo (min hi n)

/-- The percent computed by `writeProgressNow`:
`round(clamp((scrollTop / max(1, scrollHeight - clientHeight)) * 100, 0, 100))`. -/
def writePercent (scrollTop scrollHeight clientHeight : ℚ) : ℤ :=
  jsRound (clampQ (scrollTop / max 1 (scrollHeight - clientHeight) * 100) 0 100)

/-- Modelled from the spec (§4.5): the claimed persisted percent,
`round(clamp(scrollTop / max(1, totalHeight - viewportHeight), 0, 1) * 100)`;
stated from the spec wording for comparison with `writePercent`. -/
def percentSpec (scrollTop totalHeight viewportHeight : ℚ) : ℤ :=
  jsRound (clampQ (scrollTop / max 1 (totalHeight - viewportHeight)) 0 1 * 100)

/-- The backward scan in the `currentChapterIndex` memo: walk indices
`fuel - 1, …, 0` and return the first `i` with `offsets[i] ≤ scrollTop`,
defaulting to `0`. -/
def lastGE (offsets : List ℕ) (scrollTop : ℚ) : ℕ → ℕ
  | 0 => 0
  | i + 1 => if (offsets.getD i 0 : ℚ) ≤ scrollTop then i else lastGE offsets scrollTop i

/-- The `currentChapterIndex` memo: `-1` when there are no offsets, else
the `chapterIndex` of the paragraph found by the backward scan (with `-1`
for a missing paragraph or a `null` chapter index). -/
def currentChapterIdx (paras : List Para) (offsets : List ℕ) (scrollTop : ℚ) : ℤ :=
  if offsets.length = 0 then -1
  else
    match paras[lastGE offsets scrollTop offsets.length]? with
    | some p =>
      match p.chapterIndex with
      | some k => (k : ℤ)
      | none => -1
    | none => -1

/-- The scroll target computed by `goToChapter`: the offset of the first
paragraph whose `chapterIndex` equals the requested chapter, or `0` when
the chapter has no paragraph. -/
def goToChapterScroll (paras : List Para) (offsets : List ℕ) (c : ℕ) : ℚ :=
  match paras.findIdx? (fun p => p.chapterIndex = some c) with
  | some j => (offsets.getD j 0 : ℚ)
  | none => 0

/-- `findParagraphAtScroll` from the source: first index whose paragraph
box `[offset, offset + height)` strictly contains the position, else the
last paragraph. -/
def findParagraphAtScroll (offsets heights : List ℕ) (paraCount : ℕ) (pos : ℚ) : ℕ :=
  if offsets.length = 0 then 0
  else
    match (List.range offsets.length).find?
        (fun i => pos < (offsets.getD i 0 : ℚ) + (heights.getD i 0 : ℚ)) with
    | some i => i
    | none => paraCount - 1

/-- Sentence-ending punctuation of the `chunkText` regex
`(?<=[。！？!?；;．.])`. -/
def isSentEnd (c : Char) : Bool :=
  c = '。' || c = '！' || c = '？' || c = '!' || c = '?' || c = '；' || c = ';' || c = '．' || c = '.'

/-- JavaScript `str.split(/(?<=[。！？!?；;．.])/)`: cut after every
sentence-ending character; a match at the end of the string produces no
trailing empty piece. -/
def splitSent : List Char → List (List Char)
  | [] => [[]]
  | c :: cs =>
    if isSentEnd c then
      if cs = [] then [[c]]
      else [c] :: splitSent cs
    else
      match splitSent cs with
      | [] => [[c]]
      | p :: ps => (c :: p) :: ps

/-- The hard-split loop of `chunkText`: successive 180-character slices. -/
def hardSplit (l : List Char) : List (List Char) :=
  if l = [] then []
  else l.take 180 :: hardSplit (l.drop 180)
termination_by l.length
decreasing_by
  rename_i hl
  have : l.length ≠ 0 := fun h0 => hl (List.length_eq_zero.mp h0)
  simp only [List.length_drop]
  omega

/-- `chunkText` from the source: collapse whitespace, split into
sentences, keep each trimmed non-empty sentence of at most 180 characters
as one chunk, and hard-split longer sentences into 180-character slices. -/
def chunkText (text : List Char) : List (List Char) :=
  (splitSent (collapseWs text)).flatMap (fun s =>
    if s.length ≤ 180 then
      if jsTrim s = [] then [] else [jsTrim s]
    else hardSplit s)

/-- The mutable speech-session state of the Reader: the liveness flag
`isReadingRef`, the rendered `isReading`/`isPaused` flags, the highlighted
paragraph `readingIndex`, the paragraph index, chunk list and chunk cursor
of the active `speakParagraph` closure, and whether an utterance is
currently handed to the speech engine. -/
structure SpeechState where
  live : Bool
  isReading : Bool
  isPaused : Bool
  readingIndex : Option ℕ
  paraIdx : ℕ
  chunks : List (List Char)
  chunkPos : ℕ
  inFlight : Bool
deriving DecidableEq

/-- `speakParagraph` from the source, run until it hands a chunk to the
speech engine (the suspension point) or stops: guard on the liveness flag,
finish past the last paragraph, skip paragraphs that trim to empty, else
chunk the text and speak the first chunk.  Returns the new state and the
chunk texts handed to `speechSynthesis.speak`. -/
def speakParagraph (paras : List (List Char)) (s : SpeechState) (idx : ℕ) :
    SpeechState × List (List Char) :=
  if s.live = false then (s, [])
  else if hle : paras.length ≤ idx then
    ({ s with isReading := false, readingIndex := none }, [])
  else
    let raw := jsTrim (paras.getD idx [])
    if raw = [] then
      speakParagraph paras { s with readingIndex := some (idx + 1) } (idx + 1)
    else
      let cks := chunkText raw
      if cks.length = 0 then
        speakParagraph paras
          { s with readingIndex := some (idx + 1), paraIdx := idx, chunks := cks, chunkPos := 0 }
          (idx + 1)
      else
        ({ s with
            readingIndex := some idx
            paraIdx := idx
            chunks := cks
            chunkPos := 0
            inFlight := true },
          [cks.getD 0 []])
termination_by paras.length - idx
decreasing_by
  · omega
  · omega

/-- The `onend`/`onerror` handler of an utterance (both are identical):
advance the chunk cursor, then run `speakNextChunk` — guard on the
liveness flag, speak the next chunk if one remains, otherwise advance to
the next paragraph. -/
def chunkComplete (paras : List (List Char)) (s : SpeechState) :
    SpeechState × List (List Char) :=
  let s1 := { s with chunkPos := s.chunkPos + 1, inFlight := false }
  if s1.live = false then (s1, [])
  else if s1.chunks.length ≤ s1.chunkPos then
    speakParagraph paras { s1 with readingIndex := some (s1.paraIdx + 1) } (s1.paraIdx + 1)
  else
    ({ s1 with inFlight := true }, [s1.chunks.getD s1.chunkPos []])

/-- `stopReading` from the source: clear the liveness flag and the
rendered flags, detach the current utterance and cancel the engine (the
highlighted `readingIndex` is left untouched). -/
def stopReading (s : SpeechState) : SpeechState :=
  { s with live := false, isReading := false, isPaused := false, inFlight := false }

/-- `startReadingFromScreenTop` from the source: clear the paused flag,
do nothing on an empty book, else cancel the engine, raise the liveness
flag and speak from the paragraph at the top of the viewport. -/
def startReading (paras : List (List Char)) (startIdx : ℕ) (s : SpeechState) :
    SpeechState × List (List Char) :=
  if paras.length = 0 then ({ s with isPaused := false }, [])
  else
    speakParagraph paras
      { s with
          isPaused := false
          inFlight := false
          live := true
          isReading := true
          readingIndex := some startIdx }
      startIdx

/-- A chunk-completion event delivered by the audio engine: success or
error (the source installs the same continuation for both). -/
inductive TtsEvent where
  | chunkEnd : TtsEvent
  | chunkError : TtsEvent
deriving DecidableEq

/-- Deliver one completion event (success and error run the same code). -/
def completionStep (paras : List (List Char)) (s : SpeechState) (_e : TtsEvent) :
    SpeechState × List (List Char) :=
  chunkComplete paras s

/-- Deliver a sequence of completion events, collecting every chunk text
handed to the speech engine along the way. -/
def runCompletions (paras : List (List Char)) (s : SpeechState) :
    List TtsEvent → SpeechState × List (List Char)
  | [] => (s, [])
  | e :: es =>
    let r1 := completionStep paras s e
    let r2 := runCompletions paras r1.1 es
    (r2.1, r1.2 ++ r2.2)

/-- The speech session before anything happened: flags down, nothing
highlighted, no chunks. -/
def initSpeechState : SpeechState :=
  { live := false, isReading := false, isPaused := false, readingIndex := none,
    paraIdx := 0, chunks := [], chunkPos := 0, inFlight := false }

/-- A tiny two-chapter book used to instantiate universally quantified
theorems at a concrete input. -/
def sampleParas : List Para :=
  [{ text := ['a'], chapterIndex := some 0 }, { text := ['b'], chapterIndex := some 1 }]

/-- The estimated heights of `sampleParas` at font size 14 and unknown
viewport width. -/
def sampleHeights : List ℕ :=
  sampleParas.map (fun p => estimateParaHeight 14 (jsLineHeight 14) 0 p.text)

/-- Estimated heights of a 30-paragraph book of identical one-character
paragraphs at font size 14 and unknown viewport width (all 24). -/
def thirtyHeights : List ℕ :=
  (List.replicate 30 (['p'] : List Char)).map (estimateParaHeight 14 (jsLineHeight 14) 0)

/-- Estimated heights of a 3-paragraph book of identical one-character
paragraphs at font size 14 and unknown viewport width (all 24). -/
def threeHeights : List ℕ :=
  (List.replicate 3 (['p'] : List Char)).map (estimateParaHeight 14 (jsLineHeight 14) 0)

example : splitBlank "a\n\nb".data = ["a".data, "b".data] := by
  simp +decide [splitBlank, findBlank, blankRun, lastNlIdx]
example : splitBlank "a\n \n \nb".data = ["a".data, "b".data] := by
  simp +decide [splitBlank, findBlank, blankRun, lastNlIdx]
example : splitBlank "a\n b".data = ["a\n b".data] := by
  simp +decide [splitBlank, findBlank, blankRun, lastNlIdx]
example : splitNl "a\n\nb".data = ["a".data, "b".data] := by
  simp +decide [splitNl]
example : splitNl "\na\n".data = ["".data, "a".data, "".data] := by
  simp +decide [splitNl]
example : splitChar '\n' "a\n\nb".data = ["a".data, "".data, "b".data] := by decide
example : jsTrim "  a b \n".data = "a b".data := by decide
example : collapseWs "a \n\t b".data = "a b".data := by
  simp +decide [collapseWs]

theorem length_paraOffsetsAux (hs : List ℕ) : ∀ acc, (paraOffsetsAux acc hs).length = hs.length := by
  induction hs with
  | nil => intro acc; rfl
  | cons h t ih => intro acc; simp [paraOffsetsAux, ih]

theorem paraOffsetsAux_getD (hs : List ℕ) :
    ∀ acc i, i < hs.length → (paraOffsetsAux acc hs).getD i 0 = acc + (hs.take i).sum := by
  induction hs with
  | nil => intro acc i hi; simp at hi
  | cons h t ih =>
    intro acc i hi
    cases i with
    | zero => simp [paraOffsetsAux]
    | succ j =>
      simp only [paraOffsetsAux, List.getD_cons_succ]
      rw [ih (acc + h) j (by simpa using hi)]
      simp only [List.take_succ_cons, List.sum_cons]
      omega

theorem mem_paraOffsetsAux_le (hs : List ℕ) : ∀ acc x, x ∈ paraOffsetsAux acc hs → acc ≤ x := by
  induction hs with
  | nil => intro acc x hx; simp [paraOffsetsAux] at hx
  | cons h t ih =>
    intro acc x hx
    simp only [paraOffsetsAux, List.mem_cons] at hx
    rcases hx with rfl | hx
    · exact le_refl _
    · exact le_trans (Nat.le_add_right acc h) (ih (acc + h) x hx)

theorem sorted_paraOffsetsAux (hs : List ℕ) : ∀ acc, (paraOffsetsAux acc hs).Sorted (· ≤ ·) := by
  induction hs with
  | nil => intro acc; simp [paraOffsetsAux]
  | cons h t ih =>
    intro acc
    simp only [paraOffsetsAux]
    rw [List.sorted_cons]
    exact ⟨fun b hb => le_trans (Nat.le_add_right acc h) (mem_paraOffsetsAux_le t (acc + h) b hb),
      ih (acc + h)⟩

theorem foldl_add_eq_sum (l : List ℕ) : ∀ acc, l.foldl (· + ·) acc = acc + l.sum := by
  induction l with
  | nil => intro acc; simp
  | cons h t ih => intro acc; simp [ih]; omega

theorem totalHeightPx_eq_sum (hs : List ℕ) : totalHeightPx hs = hs.sum := by
  unfold totalHeightPx; rw [foldl_add_eq_sum]; omega

theorem splitChar_ne_nil (sep : Char) (l : List Char) : splitChar sep l ≠ [] := by
  induction l with
  | nil => simp [splitChar]
  | cons c cs ih =>
    unfold splitChar
    split
    · simp
    · split
      · simp
      · simp

theorem length_le_sum_map (l : List (List Char)) (f : List Char → ℕ) (hf : ∀ x, 1 ≤ f x) :
    l.length ≤ (l.map f).sum := by
  induction l with
  | nil => simp
  | cons c cs ih =>
    simp only [List.length_cons, List.map_cons, List.sum_cons]
    have := hf c
    omega

theorem jsLineHeight_ge (fs : ℕ) (h : 10 ≤ fs) : 17 ≤ jsLineHeight fs := by
  unfold jsLineHeight
  rw [Nat.le_div_iff_mul_le (by norm_num)]
  omega

theorem estimate_ge_lineHeight (fs lh w : ℕ) (text : List Char) :
    lh ≤ estimateParaHeight fs lh w text := by
  unfold estimateParaHeight
  split
  · exact le_refl _
  · rw [foldl_add_eq_sum, Nat.zero_add]
    have h1 : 1 ≤ (splitChar '\n' text).length :=
      List.length_pos.mpr (splitChar_ne_nil '\n' text)
    have h2 := length_le_sum_map (splitChar '\n' text)
      (fun line =>
        let e := (Int.ceil ((((collapseWs line).length : ℚ) * ((fs : ℚ) + 115 / 100)) / (w : ℚ))).toNat
        if e = 0 then 1 else e)
      (by intro x; dsimp only; split <;> omega)
    have h3 : 1 ≤ ((splitChar '\n' text).map (fun line =>
        let e := (Int.ceil ((((collapseWs line).length : ℚ) * ((fs : ℚ) + 115 / 100)) / (w : ℚ))).toNat
        if e = 0 then 1 else e)).sum := le_trans h1 h2
    calc lh = 1 * lh := (one_mul lh).symm
    _ ≤ ((splitChar '\n' text).map (fun line =>
        let e := (Int.ceil ((((collapseWs line).length : ℚ) * ((fs : ℚ) + 115 / 100)) / (w : ℚ))).toNat
        if e = 0 then 1 else e)).sum * lh := Nat.mul_le_mul_right lh h3
    _ ≤ _ := Nat.le_add_right _ 16

theorem getD_paraOffsets_lt (hs : List ℕ) (i : ℕ) (hi : i + 1 < hs.length)
    (hpos : ∀ x ∈ hs, 1 ≤ x) :
    (paraOffsets hs).getD i 0 < (paraOffsets hs).getD (i + 1) 0 := by
  unfold paraOffsets
  rw [paraOffsetsAux_getD hs 0 i (by omega), paraOffsetsAux_getD hs 0 (i + 1) hi]
  rw [List.sum_take_succ hs i (by omega)]
  have : 1 ≤ hs[i] := hpos _ (List.getElem_mem (by omega))
  omega

/-- C7: for every paragraph text and every font size / line height, the
height estimator called with viewport width 0 returns exactly the line
height (the single-row fallback with no division). -/
theorem c7_zero_width_fallback (text : List Char) (fontSize lineHeight : ℕ) :
    estimateParaHeight fontSize lineHeight 0 text = lineHeight := by
  simp [estimateParaHeight]

/-- C8: for every scroll position and every container scroll/client
height, the percent persisted by `writeProgressNow` equals the spec's
formula `round(clamp(scrollTop / max(1, totalHeight - viewportHeight), 0, 1) * 100)`,
and in particular scrollTop 50, total height 200, viewport height 100
gives 50. -/
theorem c8_percent_matches_spec (scrollTop totalHeight viewportHeight : ℚ) :
    writePercent scrollTop totalHeight viewportHeight
      = percentSpec scrollTop totalHeight viewportHeight ∧
    writePercent 50 200 100 = 50 := by
  constructor
  · unfold writePercent percentSpec jsRound
    congr 1
    unfold clampQ
    rw [max_mul_of_nonneg _ _ (by norm_num : (0 : ℚ) ≤ 100),
      min_mul_of_nonneg _ _ (by norm_num : (0 : ℚ) ≤ 100)]
    norm_num
  · unfold writePercent clampQ jsRound
    norm_num

/-- C6: for every paragraph list and layout inputs, the offset index has
one offset per paragraph, starts at 0, steps by exactly the estimated
height of each paragraph, is non-decreasing, and the total height is the
sum of the heights. -/
theorem c6_offset_index_invariants (paras : List Para) (heights : List ℕ)
    (fontSize width i : ℕ)
    (hh : heights = paras.map (fun p => estimateParaHeight fontSize (jsLineHeight fontSize) width p.text))
    (hi : i + 1 < paras.length) :
    (paraOffsets heights).length = paras.length ∧
    (paraOffsets heights).getD 0 0 = 0 ∧
    (paraOffsets heights).getD (i + 1) 0 = (paraOffsets heights).getD i 0 + heights.getD i 0 ∧
    (paraOffsets heights).Sorted (· ≤ ·) ∧
    totalHeightPx heights = heights.sum := by
  have hlen : heights.length = paras.length := by rw [hh, List.length_map]
  refine ⟨?_, ?_, ?_, ?_, ?_⟩
  · rw [paraOffsets, length_paraOffsetsAux, hlen]
  · rw [paraOffsets, paraOffsetsAux_getD heights 0 0 (by omega)]
    simp
  · rw [paraOffsets, paraOffsetsAux_getD heights 0 i (by omega),
      paraOffsetsAux_getD heights 0 (i + 1) (by omega),
      List.sum_take_succ heights i (by omega),
      List.getD_eq_getElem heights 0 (by omega : i < heights.length)]
    omega
  · exact sorted_paraOffsetsAux heights 0
  · exact totalHeightPx_eq_sum heights

theorem c6_offset_index_invariants_witness :
    (sampleHeights = sampleParas.map (fun p => estimateParaHeight 14 (jsLineHeight 14) 0 p.text) ∧
      0 + 1 < sampleParas.length) ∧
    ((paraOffsets sampleHeights).length = sampleParas.length ∧
      (paraOffsets sampleHeights).getD 0 0 = 0 ∧
      (paraOffsets sampleHeights).getD (0 + 1) 0
        = (paraOffsets sampleHeights).getD 0 0 + sampleHeights.getD 0 0 ∧
      (paraOffsets sampleHeights).Sorted (· ≤ ·) ∧
      totalHeightPx sampleHeights = sampleHeights.sum) :=
  ⟨⟨rfl, by decide⟩,
    c6_offset_index_invariants sampleParas sampleHeights 14 0 0 rfl (by decide)⟩

/-- C10: with font size in `[10, 24]` (so the derived line height is
positive) the estimator returns at least one line height, hence a
strictly positive height, for every text and width; consequently adjacent
cumulative offsets are strictly increasing. -/
theorem c10_estimator_positive_offsets_strict (paras : List Para) (text : List Char)
    (fontSize width i : ℕ) (h10 : 10 ≤ fontSize) (h24 : fontSize ≤ 24)
    (hi : i + 1 < paras.length) :
    jsLineHeight fontSize ≤ estimateParaHeight fontSize (jsLineHeight fontSize) width text ∧
    0 < estimateParaHeight fontSize (jsLineHeight fontSize) width text ∧
    (paraOffsets (paras.map (fun p =>
        estimateParaHeight fontSize (jsLineHeight fontSize) width p.text))).getD i 0 <
      (paraOffsets (paras.map (fun p =>
        estimateParaHeight fontSize (jsLineHeight fontSize) width p.text))).getD (i + 1) 0 := by
  have hlh : 17 ≤ jsLineHeight fontSize := jsLineHeight_ge fontSize h10
  refine ⟨estimate_ge_lineHeight _ _ _ _, ?_, ?_⟩
  · have := estimate_ge_lineHeight fontSize (jsLineHeight fontSize) width text
    omega
  · apply getD_paraOffsets_lt
    · rw [List.length_map]; exact hi
    · intro x hx
      rw [List.mem_map] at hx
      rcases hx with ⟨p, hp, rfl⟩
      have := estimate_ge_lineHeight fontSize (jsLineHeight fontSize) width p.text
      omega

theorem c10_estimator_positive_offsets_strict_witness :
    (10 ≤ 14 ∧ 14 ≤ 24 ∧ 0 + 1 < sampleParas.length) ∧
    (jsLineHeight 14 ≤ estimateParaHeight 14 (jsLineHeight 14) 0 ['a'] ∧
      0 < estimateParaHeight 14 (jsLineHeight 14) 0 ['a'] ∧
      (paraOffsets (sampleParas.map (fun p =>
          estimateParaHeight 14 (jsLineHeight 14) 0 p.text))).getD 0 0 <
        (paraOffsets (sampleParas.map (fun p =>
          estimateParaHeight 14 (jsLineHeight 14) 0 p.text))).getD (0 + 1) 0) :=
  ⟨⟨by decide, by decide, by decide⟩,
    c10_estimator_positive_offsets_strict sampleParas ['a'] 14 0 0 (by decide) (by decide)
      (by decide)⟩

/-- C1 (violated by the code): on a 30-paragraph book of uniform height
24, scroll position 120 (within `[0, totalHeight]`) and viewport height
600, `findIndex` returns `-1` for the end probe, so the code computes
`startIndex = 3` but `endIndex = min(30, -1 + 3) = 2`: the guaranteed
`startIndex ≤ endIndex` fails. -/
theorem c1_window_start_exceeds_end :
    (0 : ℚ) ≤ 120 ∧ (120 : ℚ) ≤ (totalHeightPx thirtyHeights : ℚ) ∧
    startIndex (paraOffsets thirtyHeights) 120 = 3 ∧
    endIndex (paraOffsets thirtyHeights) 30 120 600 = 2 ∧
    ¬ startIndex (paraOffsets thirtyHeights) 120
      ≤ endIndex (paraOffsets thirtyHeights) 30 120 600 := by
  refine ⟨by norm_num, ?_, ?_, ?_, ?_⟩ <;>
    · simp +decide +arith [thirtyHeights, estimateParaHeight, jsLineHeight, paraOffsets,
        paraOffsetsAux, totalHeightPx, startIndex, endIndex, jsFindIndex, BUFFER,
        List.findIdx?]
      try norm_num

/-- C2 (violated by the code): on a 3-paragraph book of uniform height 24
with every offset at most `scrollTop + viewportHeight = 600`, `findIndex`
returns `-1`, so `endIndex = min(3, -1 + 3) = 2`, not the paragraph count
3 the spec promises. -/
theorem c2_endIndex_does_not_extend :
    paraOffsets threeHeights = [0, 24, 48] ∧
    ((0 : ℚ) ≤ 0 + 600 ∧ (24 : ℚ) ≤ 0 + 600 ∧ (48 : ℚ) ≤ 0 + 600) ∧
    endIndex (paraOffsets threeHeights) 3 0 600 = 2 ∧ (2 : ℤ) ≠ 3 := by
  refine ⟨?_, ⟨by norm_num, by norm_num, by norm_num⟩, ?_, by decide⟩ <;>
    · simp +decide +arith [threeHeights, estimateParaHeight, jsLineHeight, paraOffsets,
        paraOffsetsAux, endIndex, jsFindIndex, BUFFER, List.findIdx?]
      try norm_num

theorem findIdx?_spec {α : Type} (p : α → Bool) :
    ∀ (l : List α) (i : ℕ), l.findIdx? p = some i →
      ∃ h : i < l.length, p (l.get ⟨i, h⟩) = true := by
  intro l
  induction l with
  | nil => intro i h; simp [List.findIdx?] at h
  | cons a t ih =>
    intro i h
    rw [List.findIdx?_cons] at h
    by_cases hp : p a
    · simp [hp] at h
      subst h
      exact ⟨by simp, by simpa using hp⟩
    · simp [hp] at h
      rcases h with ⟨j, hj, rfl⟩
      obtain ⟨hlt, hget⟩ := ih j hj
      exact ⟨by simpa using Nat.succ_lt_succ hlt, by simpa using hget⟩

theorem getD_paraOffsets_strict_mono (hs : List ℕ) (hpos : ∀ x ∈ hs, 1 ≤ x) (j : ℕ) :
    ∀ k, j < k → k < hs.length →
      (paraOffsets hs).getD j 0 < (paraOffsets hs).getD k 0 := by
  intro k
  induction k with
  | zero => omega
  | succ n ih =>
    intro hjk hk
    by_cases hnj : j = n
    · subst hnj
      exact getD_paraOffsets_lt hs j hk hpos
    · have h1 : (paraOffsets hs).getD j 0 < (paraOffsets hs).getD n 0 :=
        ih (by omega) (by omega)
      have h2 : (paraOffsets hs).getD n 0 < (paraOffsets hs).getD (n + 1) 0 :=
        getD_paraOffsets_lt hs n hk hpos
      omega

theorem lastGE_eq (offsets : List ℕ) (st : ℚ) (j : ℕ)
    (hj : (offsets.getD j 0 : ℚ) ≤ st) :
    ∀ m, j < m → m ≤ offsets.length →
      (∀ k, j < k → k < m → st < (offsets.getD k 0 : ℚ)) →
      lastGE offsets st m = j := by
  intro m
  induction m with
  | zero => omega
  | succ n ih =>
    intro hjm hmlen hk
    unfold lastGE
    by_cases hn : n = j
    · subst hn
      rw [if_pos hj]
    · have hlt : st < (offsets.getD n 0 : ℚ) := hk n (by omega) (by omega)
      rw [if_neg (not_le_of_lt hlt)]
      exact ih (by omega) (by omega) (fun k h1 h2 => hk k h1 (by omega))

/-- C4: for every book and font settings, if chapter `c` has at least one
paragraph then jumping to it (`goToChapter` sets the scroll position to
the offset of the chapter's first paragraph) and reading the current
chapter back from that scroll position returns exactly `c`. -/
theorem c4_goToChapter_roundtrip (paras : List Para) (fontSize width c : ℕ)
    (h10 : 10 ≤ fontSize)
    (hch : ∃ p ∈ paras, p.chapterIndex = some c) :
    currentChapterIdx paras
      (paraOffsets (paras.map (fun p =>
        estimateParaHeight fontSize (jsLineHeight fontSize) width p.text)))
      (goToChapterScroll paras
        (paraOffsets (paras.map (fun p =>
          estimateParaHeight fontSize (jsLineHeight fontSize) width p.text))) c)
      = (c : ℤ) := by
  set hs := paras.map (fun p =>
    estimateParaHeight fontSize (jsLineHeight fontSize) width p.text) with hhs
  have hpos : ∀ x ∈ hs, 1 ≤ x := by
    intro x hx
    rw [hhs, List.mem_map] at hx
    rcases hx with ⟨p, hp, rfl⟩
    have h1 := jsLineHeight_ge fontSize h10
    have h2 := estimate_ge_lineHeight fontSize (jsLineHeight fontSize) width p.text
    omega
  have hlen : hs.length = paras.length := by rw [hhs, List.length_map]
  have holen : (paraOffsets hs).length = hs.length := length_paraOffsetsAux hs 0
  have hnone : paras.findIdx? (fun p => p.chapterIndex = some c) ≠ none := by
    intro hfn
    rw [List.findIdx?_eq_none_iff] at hfn
    obtain ⟨p, hp, hpc⟩ := hch
    have := hfn p hp
    simp [hpc] at this
  obtain ⟨j, hj⟩ : ∃ j, paras.findIdx? (fun p => p.chapterIndex = some c) = some j := by
    cases hfi : paras.findIdx? (fun p => p.chapterIndex = some c) with
    | none => exact absurd hfi hnone
    | some j => exact ⟨j, rfl⟩
  obtain ⟨hjlt, hjp⟩ := findIdx?_spec _ _ _ hj
  have hjpc : (paras.get ⟨j, hjlt⟩).chapterIndex = some c := by
    simpa using hjp
  unfold goToChapterScroll
  rw [hj]
  unfold currentChapterIdx
  rw [if_neg (by omega : ¬ (paraOffsets hs).length = 0)]
  have hscan : lastGE (paraOffsets hs) ((paraOffsets hs).getD j 0 : ℚ)
      (paraOffsets hs).length = j := by
    apply lastGE_eq (paraOffsets hs) _ j (le_refl _) _ (by omega) (le_refl _)
    intro k h1 h2
    exact_mod_cast getD_paraOffsets_strict_mono hs hpos j k h1 (by omega)
  rw [hscan]
  rw [List.getElem?_eq_getElem (by omega : j < paras.length)]
  have hjpc2 : paras[j].chapterIndex = some c := by
    simpa [List.get_eq_getElem] using hjpc
  simp only [hjpc2]

theorem c4_goToChapter_roundtrip_witness :
    (10 ≤ 14 ∧ ∃ p ∈ sampleParas, p.chapterIndex = some 1) ∧
    currentChapterIdx sampleParas
      (paraOffsets (sampleParas.map (fun p =>
        estimateParaHeight 14 (jsLineHeight 14) 0 p.text)))
      (goToChapterScroll sampleParas
        (paraOffsets (sampleParas.map (fun p =>
          estimateParaHeight 14 (jsLineHeight 14) 0 p.text))) 1)
      = (1 : ℤ) :=
  ⟨⟨by decide, by decide⟩,
    c4_goToChapter_roundtrip sampleParas 14 0 1 (by decide) (by decide)⟩

theorem chunkComplete_dead (paras : List (List Char)) (s : SpeechState)
    (h : s.live = false) :
    chunkComplete paras s = ({ s with chunkPos := s.chunkPos + 1, inFlight := false }, []) := by
  unfold chunkComplete
  simp [h]

/-- C5: once `stopReading` has run (the liveness flag is down), delivering
any sequence of chunk-completion callbacks (successes or errors) hands no
further chunk to the speech engine, never moves the highlighted
paragraph, and leaves the liveness flag down. -/
theorem c5_no_speak_after_stop (paras : List (List Char)) (s : SpeechState)
    (evs : List TtsEvent) :
    (runCompletions paras (stopReading s) evs).2 = [] ∧
    (runCompletions paras (stopReading s) evs).1.readingIndex = s.readingIndex ∧
    (runCompletions paras (stopReading s) evs).1.live = false := by
  have key : ∀ (l : List TtsEvent) (t : SpeechState), t.live = false →
      (runCompletions paras t l).2 = [] ∧
      (runCompletions paras t l).1.readingIndex = t.readingIndex ∧
      (runCompletions paras t l).1.live = false := by
    intro l
    induction l with
    | nil => intro t ht; exact ⟨rfl, rfl, ht⟩
    | cons e es ih =>
      intro t ht
      have hstep := chunkComplete_dead paras t ht
      obtain ⟨h1, h2, h3⟩ := ih { t with chunkPos := t.chunkPos + 1, inFlight := false } ht
      unfold runCompletions completionStep
      rw [hstep]
      exact ⟨by simpa using h1, h2, h3⟩
  exact key evs (stopReading s) rfl

/-- C9 (amended): `stopReading` is idempotent — a second call changes
nothing — and one call leaves the session not live, not reading, not
paused, with no utterance at the engine; the highlighted paragraph index,
however, keeps its previous value (it is not reset to `none`). -/
theorem c9_stop_idempotent (s : SpeechState) :
    stopReading (stopReading s) = stopReading s ∧
    (stopReading s).live = false ∧
    (stopReading s).isReading = false ∧
    (stopReading s).isPaused = false ∧
    (stopReading s).inFlight = false := ⟨rfl, rfl, rfl, rfl, rfl⟩

/-- C9 counterexample to the claim as stated: start reading a one-
paragraph book (a reachable session), then stop; the session keeps
`readingIndex = some 0` — the post-stop state does have a current
paragraph, contradicting "no current paragraph". -/
theorem c9_counterexample :
    (stopReading (startReading [['h', 'i']] 0 initSpeechState).1).readingIndex = some 0 ∧
    (some 0 : Option ℕ) ≠ none := by
  constructor
  · simp +decide [startReading, speakParagraph, chunkText, collapseWs, splitSent, jsTrim,
      trimL, trimR, isSentEnd, stopReading, initSpeechState]
  · decide

theorem dropWhile_dropWhile_of_imp (p q : Char → Bool) (himp : ∀ c, q c = true → p c = true) :
    ∀ l : List Char, (l.dropWhile q).dropWhile p = l.dropWhile p := by
  intro l
  induction l with
  | nil => rfl
  | cons c cs ih =>
    rw [List.dropWhile_cons, List.dropWhile_cons]
    by_cases hq : q c = true
    · rw [if_pos hq, ih, if_pos (himp c hq)]
    · rw [if_neg hq, List.dropWhile_cons]

theorem dropWhile_append_of_all (p : Char → Bool) (a b : List Char)
    (ha : ∀ c ∈ a, p c = true) : (a ++ b).dropWhile p = b.dropWhile p := by
  induction a with
  | nil => rfl
  | cons c cs ih =>
    rw [List.cons_append, List.dropWhile_cons, if_pos (ha c (by simp)),
      ih (fun x hx => ha x (by simp [hx]))]

theorem trimL_cons_space (c : Char) (l : List Char) (h : jsIsSpace c = true) :
    trimL (c :: l) = trimL l := by
  unfold trimL
  rw [List.dropWhile_cons, if_pos h]

theorem jsTrim_cons_space (c : Char) (l : List Char) (h : jsIsSpace c = true) :
    jsTrim (c :: l) = jsTrim l := by
  unfold jsTrim
  rw [trimL_cons_space c l h]

theorem trimR_allSpace (l : List Char) (h : ∀ c ∈ l, jsIsSpace c = true) : trimR l = [] := by
  unfold trimR
  rw [List.dropWhile_eq_nil_iff.mpr (fun x hx => h x (List.mem_reverse.mp hx))]
  rfl

theorem jsTrim_allSpace (l : List Char) (h : ∀ c ∈ l, jsIsSpace c = true) : jsTrim l = [] := by
  unfold jsTrim trimL
  rw [List.dropWhile_eq_nil_iff.mpr h]
  rfl

theorem trimR_cons (a : Char) (l : List Char) :
    trimR (a :: l) = if trimR l = [] then (if jsIsSpace a then [] else [a]) else a :: trimR l := by
  unfold trimR
  rw [show (a :: l).reverse = l.reverse ++ [a] by simp]
  rw [List.dropWhile_append]
  by_cases hnil : l.reverse.dropWhile jsIsSpace = []
  · rw [if_pos (by simp [hnil]), if_pos (by simp [hnil])]
    by_cases ha : jsIsSpace a
    · rw [if_pos ha]
      simp [List.dropWhile_cons, ha]
    · rw [if_neg ha]
      simp [List.dropWhile_cons, ha]
  · rw [if_neg (by simpa using hnil), if_neg (by simpa using hnil)]
    simp

theorem trimR_append_allSpace (t w : List Char) (hw : ∀ c ∈ w, jsIsSpace c = true) :
    trimR (t ++ w) = trimR t := by
  unfold trimR
  rw [List.reverse_append,
    dropWhile_append_of_all jsIsSpace w.reverse t.reverse
      (fun x hx => hw x (List.mem_reverse.mp hx))]

theorem trimR_idem (l : List Char) : trimR (trimR l) = trimR l := by
  unfold trimR
  rw [List.reverse_reverse,
    dropWhile_dropWhile_of_imp jsIsSpace jsIsSpace (fun c h => h) l.reverse]

theorem jsTrim_cons_nonspace (c : Char) (l : List Char) (h : ¬ jsIsSpace c = true) :
    jsTrim (c :: l) = c :: trimR l := by
  unfold jsTrim trimL
  rw [List.dropWhile_cons, if_neg h, trimR_cons]
  by_cases hnil : trimR l = []
  · rw [if_pos hnil, if_neg h, hnil]
  · rw [if_neg hnil]

theorem trimR_decomp (l : List Char) :
    ∃ w, l = trimR l ++ w ∧ ∀ c ∈ w, jsIsSpace c = true := by
  refine ⟨(l.reverse.takeWhile jsIsSpace).reverse, ?_, ?_⟩
  · unfold trimR
    rw [← List.reverse_append, List.takeWhile_append_dropWhile jsIsSpace l.reverse,
      List.reverse_reverse]
  · intro c hc
    exact List.mem_takeWhile_imp (List.mem_reverse.mp hc)

theorem splitNl_ne_nil (l : List Char) : splitNl l ≠ [] := by
  cases l with
  | nil => simp [splitNl]
  | cons c cs =>
    unfold splitNl
    split
    · simp
    · split <;> simp

theorem splitNl_allSpace_aux (n : ℕ) :
    ∀ w : List Char, w.length ≤ n → (∀ c ∈ w, jsIsSpace c = true) →
      ∀ piece ∈ splitNl w, ∀ c ∈ piece, jsIsSpace c = true := by
  induction n with
  | zero =>
    intro w hw _ piece hpiece
    cases w with
    | nil =>
      simp [splitNl] at hpiece
      subst hpiece
      simp
    | cons c cs => simp at hw
  | succ n ih =>
    intro w hw hsp piece hpiece
    cases w with
    | nil =>
      simp [splitNl] at hpiece
      subst hpiece
      simp
    | cons c cs =>
      unfold splitNl at hpiece
      by_cases hc : c = '\n'
      · rw [if_pos hc] at hpiece
        rcases List.mem_cons.mp hpiece with rfl | hmem
        · simp
        · refine ih (cs.dropWhile (fun x => x = '\n')) ?_ ?_ piece hmem
          · have := (List.dropWhile_sublist (l := cs) (fun x => x = '\n')).length_le
            simp at hw
            omega
          · intro x hx
            exact hsp x (List.mem_cons_of_mem c
              ((List.dropWhile_sublist (fun x => x = '\n')).mem hx))
      · rw [if_neg hc] at hpiece
        have hne := splitNl_ne_nil cs
        match hsplit : splitNl cs with
        | [] => exact absurd hsplit hne
        | p :: ps =>
          rw [hsplit] at hpiece
          have hcs : ∀ piece ∈ splitNl cs, ∀ x ∈ piece, jsIsSpace x = true := by
            refine ih cs ?_ ?_
            · simp at hw; omega
            · intro x hx; exact hsp x (List.mem_cons_of_mem c hx)
          rcases List.mem_cons.mp hpiece with rfl | hmem
          · intro x hx
            rcases List.mem_cons.mp hx with rfl | hx2
            · exact hsp x (by simp)
            · exact hcs p (by rw [hsplit]; simp) x hx2
          · exact hcs piece (by rw [hsplit]; simp [hmem]) 

theorem splitNl_append_allSpace :
    ∀ t w : List Char, '\n' ∉ t → (∀ c ∈ w, jsIsSpace c = true) →
      ∃ w1 ps, splitNl (t ++ w) = (t ++ w1) :: ps ∧
        (∀ c ∈ w1, jsIsSpace c = true) ∧
        ∀ r ∈ ps, ∀ c ∈ r, jsIsSpace c = true := by
  intro t
  induction t with
  | nil =>
    intro w _ hw
    match hsplit : splitNl w with
    | [] => exact absurd hsplit (splitNl_ne_nil w)
    | p :: ps =>
      have hall := splitNl_allSpace_aux w.length w le_rfl hw
      refine ⟨p, ps, by simpa using hsplit, ?_, ?_⟩
      · exact hall p (by rw [hsplit]; simp)
      · intro r hr
        exact hall r (by rw [hsplit]; simp [hr])
  | cons c t' ih =>
    intro w hnl hw
    have hc : ¬ c = '\n' := fun hc => hnl (by simp [hc])
    have hnl2 : '\n' ∉ t' := fun hm => hnl (by simp [hm])
    obtain ⟨w1, ps, hsplit, hw1, hps⟩ := ih w hnl2 hw
    refine ⟨w1, ps, ?_, hw1, hps⟩
    rw [List.cons_append]
    unfold splitNl
    rw [if_neg hc, hsplit]
    simp

theorem trimFilter_splitNl_aux (n : ℕ) :
    ∀ b : List Char, b.length ≤ n → '\n' ∉ jsTrim b →
      ((splitNl b).map jsTrim).filter (fun t => !t.isEmpty)
        = if (jsTrim b).isEmpty then [] else [jsTrim b] := by
  induction n with
  | zero =>
    intro b hb _
    cases b with
    | nil => simp [splitNl, jsTrim, trimL, trimR]
    | cons c cs => simp at hb
  | succ n ih =>
    intro b hb hnl
    cases b with
    | nil => simp [splitNl, jsTrim, trimL, trimR]
    | cons c cs =>
      by_cases hc : c = '\n'
      · subst hc
        have hsp : jsIsSpace '\n' = true := by decide
        have htr : jsTrim ('\n' :: cs) = jsTrim (cs.dropWhile (fun x => x = '\n')) := by
          rw [jsTrim_cons_space _ _ hsp]
          unfold jsTrim trimL
          rw [dropWhile_dropWhile_of_imp jsIsSpace (fun x => x = '\n')
            (fun x hx => by simp at hx; simp [hx, jsIsSpace]) cs]
        have hlen : (cs.dropWhile (fun x => x = '\n')).length ≤ n := by
          have := (List.dropWhile_sublist (l := cs) (fun x => x = '\n')).length_le
          simp at hb
          omega
        have hrec := ih (cs.dropWhile (fun x => x = '\n')) hlen (htr ▸ hnl)
        rw [show splitNl ('\n' :: cs)
            = [] :: splitNl (cs.dropWhile (fun x => x = '\n')) by rw [splitNl]; simp]
        rw [List.map_cons, List.filter_cons]
        simp only [show (!(jsTrim ([] : List Char)).isEmpty) = false from rfl,
          Bool.false_eq_true, if_false]
        rw [hrec, htr]
      · by_cases hsp : jsIsSpace c = true
        · have hne := splitNl_ne_nil cs
          match hsplit : splitNl cs with
          | [] => exact absurd hsplit hne
          | p :: ps =>
            have htr : jsTrim (c :: cs) = jsTrim cs := jsTrim_cons_space c cs hsp
            have hrec := ih cs (by simp at hb; omega) (htr ▸ hnl)
            rw [show splitNl (c :: cs) = (c :: p) :: ps by
              rw [splitNl]; rw [if_neg hc, hsplit]]
            rw [List.map_cons, List.filter_cons, jsTrim_cons_space c p hsp]
            rw [hsplit, List.map_cons, List.filter_cons] at hrec
            rw [hrec, htr]
        · have htr : jsTrim (c :: cs) = c :: trimR cs := jsTrim_cons_nonspace c cs hsp
          obtain ⟨w, hw_eq, hw_sp⟩ := trimR_decomp cs
          have hnlc : '\n' ∉ (c :: trimR cs) := htr ▸ hnl
          obtain ⟨w1, ps, hsplit, hw1, hps⟩ :=
            splitNl_append_allSpace (c :: trimR cs) w hnlc hw_sp
          have hb_eq : c :: cs = (c :: trimR cs) ++ w := by
            rw [List.cons_append, ← hw_eq]
          have hhead : jsTrim ((c :: trimR cs) ++ w1) = c :: trimR cs := by
            rw [List.cons_append, jsTrim_cons_nonspace c _ hsp,
              trimR_append_allSpace _ _ hw1, trimR_idem]
          rw [hb_eq, hsplit, List.map_cons, List.filter_cons, hhead]
          simp only [show (!(c :: trimR cs).isEmpty) = true from rfl, if_pos]
          have htail : (ps.map jsTrim).filter (fun t => !t.isEmpty) = [] := by
            rw [List.filter_eq_nil_iff]
            intro a ha
            rw [List.mem_map] at ha
            obtain ⟨r, hr, rfl⟩ := ha
            rw [jsTrim_allSpace r (hps r hr)]
            simp
          rw [htail, ← hb_eq, htr]
          simp

theorem trimFilter_splitNl (b : List Char) (h : '\n' ∉ jsTrim b) :
    ((splitNl b).map jsTrim).filter (fun t => !t.isEmpty)
      = if (jsTrim b).isEmpty then [] else [jsTrim b] :=
  trimFilter_splitNl_aux b.length b le_rfl h

theorem filter_map_eq_flatMap (l : List (List Char)) (f : List Char → List Char)
    (p : List Char → Bool) :
    (l.map f).filter p = l.flatMap (fun a => if p (f a) then [f a] else []) := by
  induction l with
  | nil => rfl
  | cons b bs ih =>
    rw [List.map_cons, List.filter_cons, List.flatMap_cons, ← ih]
    by_cases hp : p (f b) = true
    · rw [if_pos hp, if_pos hp, List.singleton_append]
    · rw [if_neg hp, if_neg hp, List.nil_append]

theorem flatMap_congr_mem (l : List (List Char)) (f g : List Char → List (List Char))
    (h : ∀ a ∈ l, f a = g a) : l.flatMap f = l.flatMap g := by
  induction l with
  | nil => rfl
  | cons b bs ih =>
    rw [List.flatMap_cons, List.flatMap_cons, h b (by simp),
      ih (fun a ha => h a (by simp [ha]))]

/-- C3 counterexample to the claim as stated: on the content `"a\nb"`
(one block with a single internal newline, no chapters) the no-chapter
branch keeps the block whole, while the per-chapter-slice algorithm
applied to the whole text splits it at the newline — the paragraph texts
differ. -/
theorem c3_counterexample :
    (segmentParagraphs "a\nb".data []).map Para.text = ["a\nb".data] ∧
    sliceBlocks "a\nb".data = ["a".data, "b".data] ∧
    ¬ (segmentParagraphs "a\nb".data []).map Para.text = sliceBlocks "a\nb".data := by
  have h1 : (segmentParagraphs "a\nb".data []).map Para.text = ["a\nb".data] := by
    simp +decide [segmentParagraphs, List.mergeSort, noChapterBlocks, splitBlank, findBlank,
      blankRun, lastNlIdx, jsTrim, trimL, trimR]
  have h2 : sliceBlocks "a\nb".data = ["a".data, "b".data] := by
    simp +decide [sliceBlocks, splitBlank, findBlank, blankRun, lastNlIdx, splitNl,
      jsTrim, trimL, trimR]
  refine ⟨h1, h2, ?_⟩
  rw [h1, h2]
  decide

/-- C3 (amended): the no-chapter branch does not re-split multi-line
blocks on single newlines; but whenever no blank-line-delimited block of
the content keeps a newline after trimming, segmenting with zero chapters
produces exactly the paragraph texts of the per-chapter-slice algorithm
applied to the whole text, and every paragraph's `chapterIndex` is `none`
(the `chapterIndex` part needs no side condition). -/
theorem c3_no_chapter_agreement (text : List Char)
    (h : ∀ b ∈ splitBlank text, '\n' ∉ jsTrim b) :
    (segmentParagraphs text []).map Para.text = sliceBlocks text ∧
    ∀ p ∈ segmentParagraphs text [], p.chapterIndex = none := by
  have hseg : segmentParagraphs text [] =
      (noChapterBlocks text).map (fun t => { text := t, chapterIndex := none }) := by
    unfold segmentParagraphs
    simp [List.mergeSort]
  constructor
  · rw [hseg, List.map_map]
    have hid : (Para.text ∘ fun t => ({ text := t, chapterIndex := none } : Para)) = id := rfl
    rw [hid, List.map_id]
    unfold noChapterBlocks sliceBlocks
    rw [List.map_flatMap, List.filter_flatMap]
    rw [filter_map_eq_flatMap]
    apply flatMap_congr_mem
    intro b hb
    rw [trimFilter_splitNl b (h b hb)]
    by_cases hE : (jsTrim b).isEmpty = true
    · rw [if_pos hE, if_neg (by simp_all)]
    · rw [if_neg hE, if_pos (by simp_all)]
  · intro p hp
    rw [hseg] at hp
    rw [List.mem_map] at hp
    obtain ⟨t, ht, rfl⟩ := hp
    rfl

theorem c3_no_chapter_agreement_witness :
    (∀ b ∈ splitBlank "hi\n\nyo x".data, '\n' ∉ jsTrim b) ∧
    ((segmentParagraphs "hi\n\nyo x".data []).map Para.text = sliceBlocks "hi\n\nyo x".data ∧
      ∀ p ∈ segmentParagraphs "hi\n\nyo x".data [], p.chapterIndex = none) :=
  ⟨by simp +decide [splitBlank, findBlank, blankRun, lastNlIdx, jsTrim, trimL, trimR],
    c3_no_chapter_agreement "hi\n\nyo x".data
      (by simp +decide [splitBlank, findBlank, blankRun, lastNlIdx, jsTrim, trimL, trimR])⟩
